import Mathlib

/-!
# Verification of the fashion-trend analytics pipeline

Shallow embedding of `src/fashion_trend_analytics/scripts/pipeline.py`.

Modelling conventions:
* pandas cells that may be missing (`NaN`/`None`) are `Option` values;
  numeric cells are rationals (`ℚ`), so `likes + 0.1 * views` is exact.
* `pd.to_datetime(..., errors="coerce")` is modelled by `RawPost.date :
  Option PDate`: `none` is `NaT` (an unparseable date), `some d` a parsed
  date.  No claim concerns the calendar arithmetic of `strftime("%G-W%V")`
  itself, so a parsed date is represented by the ISO week label that
  `safe_week` assigns to it.
* Python string comparison (used by `sorted` and by pandas when it sorts
  group keys) is lexicographic on code points; `strLE`/`strLT` implement
  exactly that on `String.data`.
* pandas `Series.mean` skips missing values and is `NaN` on an empty set
  of defined values; `listMean` returns `none` in that case.
* Every function is total: row-level defaulting and the trend ranker's
  degenerate cases are values, not exceptions, mirroring the fact that
  the script handles them without raising.
-/

/-! ## Controlled vocabulary (pipeline.py lines 16-28) -/

def COLOR_WORDS : List String :=
  ["red", "blue", "black", "white", "green", "beige", "pastel"]

def STYLE_WORDS : List String :=
  ["denim", "linen", "leather", "knit", "floral"]

def MOOD_WORDS : List String :=
  ["minimal", "romantic", "edgy", "cozy", "casual", "bold", "confident",
   "lightweight", "mood"]

/-- The set `TAG_WORDS = set(COLOR_WORDS + STYLE_WORDS + MOOD_WORDS)`; only
membership in the set is ever used, so a list models it.  It is a plain
`def`, constructed once and never mutated anywhere in this development. -/
def TAG_WORDS : List String := COLOR_WORDS ++ STYLE_WORDS ++ MOOD_WORDS

/-! ## Code-point lexicographic string order (Python `sorted`) -/

/-- Lexicographic `≤` on char lists by code point, as Python compares
strings. -/
def lexLEb : List Char → List Char → Bool
  | [], _ => true
  | _ :: _, [] => false
  | a :: as, b :: bs =>
    if a.toNat < b.toNat then true
    else if b.toNat < a.toNat then false
    else lexLEb as bs

/-- Strict lexicographic `<` on char lists by code point. -/
def lexLTb : List Char → List Char → Bool
  | [], [] => false
  | [], _ :: _ => true
  | _ :: _, [] => false
  | a :: as, b :: bs =>
    if a.toNat < b.toNat then true
    else if b.toNat < a.toNat then false
    else lexLTb as bs

def strLE (a b : String) : Prop := lexLEb a.data b.data = true

instance : DecidableRel strLE := fun a b =>
  inferInstanceAs (Decidable (lexLEb a.data b.data = true))

/-- Python `sorted` on a list of strings. -/
def sortStrings (l : List String) : List String := List.insertionSort strLE l

/-- Python `sorted(set(l))` for a list of strings: deduplicate, then sort. -/
def pySortedSet (l : List String) : List String := sortStrings l.dedup

/-! ## Text normalizer (pipeline.py lines 30-47) -/

/-- Python `\s` on ASCII: space, tab, newline, carriage return, vertical
tab, form feed. -/
def pyIsSpace (c : Char) : Bool :=
  c = ' ' || c = '\t' || c = '\n' || c = '\r' || c = '\x0b' || c = '\x0c'

/-- One left-to-right pass of `re.sub(r"http\S+|www\.\S+", "", s)`.
At each position the regex first tries `http` followed by at least one
non-space, then `www.` followed by at least one non-space; on a match the
matched characters are deleted and scanning resumes after them, otherwise
the current character is kept.  The first argument is fuel (the scan
consumes at least one character per step, so `length` fuel suffices). -/
def urlSubGo : Nat → List Char → List Char
  | _, [] => []
  | 0, l => l
  | fuel + 1, c :: cs =>
    if c = 'h' && cs.take 3 = ['t', 't', 'p'] &&
        !((cs.drop 3).takeWhile (fun d => !pyIsSpace d)).isEmpty then
      urlSubGo fuel ((cs.drop 3).dropWhile (fun d => !pyIsSpace d))
    else if c = 'w' && cs.take 3 = ['w', 'w', '.'] &&
        !((cs.drop 3).takeWhile (fun d => !pyIsSpace d)).isEmpty then
      urlSubGo fuel ((cs.drop 3).dropWhile (fun d => !pyIsSpace d))
    else
      c :: urlSubGo fuel cs

def urlSub (s : String) : String := ⟨urlSubGo s.data.length s.data⟩

/-- Python `str.strip()`: remove leading and trailing whitespace. -/
def pyStrip (s : String) : String :=
  ⟨((s.data.dropWhile pyIsSpace).reverse.dropWhile pyIsSpace).reverse⟩

/-- Function `clean_text` (lines 33-36): remove URLs, strip.  The Python function
also maps a falsy argument (`None`, `""`) to `""` via `s or ""`; on
strings that is the identity, and in `main` the argument is always a
string (see `astypeStr`). -/
def clean_text (s : String) : String := pyStrip (urlSub s)

/-- Python `str.lower()` on ASCII. -/
def lowerChar (c : Char) : Char :=
  if 65 ≤ c.toNat && c.toNat ≤ 90 then Char.ofNat (c.toNat + 32) else c

def lowerStr (s : String) : String := ⟨s.data.map lowerChar⟩

/-- Python `\w`: alphanumeric or underscore (ASCII fragment). -/
def isWordChar (c : Char) : Bool := c.isAlphanum || c = '_'

/-- Regex scan `re.findall(r"#(\w+)", s)`: left-to-right; after a `#` a maximal
nonempty run of word characters is captured, and scanning resumes after
the run.  Fuel-indexed as in `urlSubGo`. -/
def findHashtagsGo : Nat → List Char → List String
  | _, [] => []
  | 0, _ => []
  | fuel + 1, c :: cs =>
    if c = '#' && !(cs.takeWhile isWordChar).isEmpty then
      String.mk (cs.takeWhile isWordChar) :: findHashtagsGo fuel (cs.dropWhile isWordChar)
    else
      findHashtagsGo fuel cs

/-- Function `extract_hashtags` (lines 38-39): hashtag words, lowercased. -/
def extract_hashtags (s : String) : List String :=
  (findHashtagsGo s.data.length s.data).map lowerStr

def isLowerAlpha (c : Char) : Bool := 'a' ≤ c && c ≤ 'z'

/-- Regex scan `re.findall(r"[a-z]+", s)` (line 71): maximal runs of lowercase
letters. -/
def findTokensGo : Nat → List Char → List String
  | _, [] => []
  | 0, _ => []
  | fuel + 1, c :: cs =>
    if isLowerAlpha c then
      String.mk ((c :: cs).takeWhile isLowerAlpha)
        :: findTokensGo fuel ((c :: cs).dropWhile isLowerAlpha)
    else
      findTokensGo fuel cs

def findTokens (s : String) : List String := findTokensGo s.data.length s.data

/-- Function `keyword_tags` (lines 41-42): `sorted(\x7bt for t in tokens if t in TAG_WORDS\x7d)`. -/
def keyword_tags (tokens : List String) : List String :=
  pySortedSet (tokens.filter (fun t => decide (t ∈ TAG_WORDS)))

/-- Line 75: `sorted({t for t in hashtags + kw_tags if t in TAG_WORDS})`. -/
def combine_tags (hashtags kw_tags : List String) : List String :=
  pySortedSet ((hashtags ++ kw_tags).filter (fun t => decide (t ∈ TAG_WORDS)))

/-! ## Data model -/

/-- A successfully parsed date (`pd.to_datetime` succeeded).  No claim
concerns calendar arithmetic, so a parsed date is identified with the ISO
week label `"%G-W%V"` that `safe_week` (lines 44-47) renders for it. -/
structure PDate where
  week : String
deriving DecidableEq

/-- Function `safe_week` (lines 44-47): the ISO week label of a parsed date. -/
def safe_week (d : PDate) : String := d.week

/-- One row of the input CSV.  `date` is the result of
`pd.to_datetime(..., errors="coerce")`: `none` is `NaT`. -/
structure RawPost where
  post_id : Nat
  date : Option PDate
  text : Option String
  likes : Option ℚ
  views : Option ℚ

/-- pandas `.astype(str)` on a cell: a missing value (`NaN`) is rendered
as the string `"nan"`; a present string is unchanged. -/
def astypeStr : Option String → String
  | none => "nan"
  | some s => s

/-- Line 78: `likes.fillna(0) + 0.1 * views.fillna(0)`. -/
def engagementOf (likes views : Option ℚ) : ℚ :=
  likes.getD 0 + 1 / 10 * views.getD 0

/-- A fully normalized row (the dataframe columns added in lines 67-84). -/
structure NormPost where
  post_id : Nat
  text : Option String
  text_clean : String
  hashtags : List String
  tokens : List String
  kw_tags : List String
  all_tags : List String
  engagement : ℚ
  sentiment : Option ℚ
  week : String

/-- Lines 63-64: `to_datetime(errors="coerce")` + `dropna(subset=["date"])`:
rows whose date fails to parse are discarded. -/
def dropBadDates (rows : List RawPost) : List RawPost :=
  rows.filter (fun r => r.date.isSome)

/-- Per-row normalization, lines 67-84 (all columns except sentiment). -/
def normalizeRow (r : RawPost) (d : PDate) : NormPost :=
  let tc := lowerStr (clean_text (astypeStr r.text))
  let hs := extract_hashtags tc
  let toks := findTokens tc
  let kw := keyword_tags toks
  { post_id := r.post_id
    text := r.text
    text_clean := tc
    hashtags := hs
    tokens := toks
    kw_tags := kw
    all_tags := combine_tags hs kw
    engagement := engagementOf r.likes r.views
    sentiment := none
    week := safe_week d }

/-- The sentiment capability (lines 8-14, 49-56): `none` models
`HAVE_VADER = False`; `some f` models an available analyzer whose
compound polarity score on a text is `f`. -/
def SentimentMode : Type := Option (String → ℚ)

/-- Function `add_sentiment` (lines 49-56): disabled sets the column to `None`;
enabled scores `text.fillna("")` for every row. -/
def addSentiment (mode : SentimentMode) (ps : List NormPost) : List NormPost :=
  match mode with
  | none => ps.map (fun p => { p with sentiment := none })
  | some f => ps.map (fun p => { p with sentiment := some (f (p.text.getD "")) })

/-- Lines 62-84: drop unparseable dates, then build all derived columns. -/
def normalizePosts (mode : SentimentMode) (rows : List RawPost) : List NormPost :=
  addSentiment mode
    ((dropBadDates rows).map (fun r => normalizeRow r (r.date.getD ⟨""⟩)))

/-! ## Weekly aggregator (pipeline.py lines 86-94) -/

/-- pandas `Series.mean` with `skipna`: the mean of the listed values,
`NaN` (here `none`) when there are none. -/
def listMean (l : List ℚ) : Option ℚ :=
  if l.isEmpty then none else some (l.sum / l.length)

/-- Line 87: `df.explode("all_tags").dropna(subset=["all_tags"])` — one
row per (post, tag); a post with no tags contributes nothing. -/
def explode (ps : List NormPost) : List (NormPost × String) :=
  ps.flatMap (fun p => p.all_tags.map (fun t => (p, t)))

/-- Lexicographic order on `(week, tag)` pairs, as pandas sorts group
keys. -/
def keyLEb (a b : String × String) : Bool :=
  if lexLTb a.1.data b.1.data then true
  else if lexLTb b.1.data a.1.data then false
  else lexLEb a.2.data b.2.data

def sortKeys (l : List (String × String)) : List (String × String) :=
  List.insertionSort (fun a b => keyLEb a b = true) l

/-- The distinct `(week, all_tags)` group keys, in pandas' sorted order. -/
def groupKeys (ex : List (NormPost × String)) : List (String × String) :=
  sortKeys ((ex.map (fun r => (r.1.week, r.2))).dedup)

/-- The exploded rows belonging to one `(week, tag)` group. -/
def groupRows (ex : List (NormPost × String)) (k : String × String) : List NormPost :=
  (ex.filter (fun r => decide (r.1.week = k.1 ∧ r.2 = k.2))).map Prod.fst

/-- One row of `weekly_tag_summary`: the named aggregations of lines
90-94. -/
structure SummaryRow where
  week : String
  tag : String
  posts : Nat
  avg_engagement : ℚ
  avg_sentiment : Option ℚ
deriving DecidableEq

/-- The aggregation of one group: `posts = count(post_id)`,
`avg_engagement = mean(engagement)`, `avg_sentiment = mean(sentiment)`
(missing sentiments skipped). -/
def rowOf (ex : List (NormPost × String)) (k : String × String) : SummaryRow :=
  let g := groupRows ex k
  { week := k.1
    tag := k.2
    posts := g.length
    avg_engagement := (g.map (fun p => p.engagement)).sum / g.length
    avg_sentiment := listMean (g.filterMap (fun p => p.sentiment)) }

/-- Lines 90-94: the weekly per-(week, tag) summary table. -/
def makeWeekly (ps : List NormPost) : List SummaryRow :=
  (groupKeys (explode ps)).map (rowOf (explode ps))

/-! ## Trend ranker (pipeline.py lines 98-109) -/

/-- Line 101: `sorted(weekly["week"].unique())`. -/
def weeksSorted (weekly : List SummaryRow) : List String :=
  sortStrings ((weekly.map (fun r => r.week)).dedup)

/-- Line 102: `weeks_sorted[-2:]` (Python slice clamps at the ends). -/
def recentWeeks (weekly : List SummaryRow) : List String :=
  (weeksSorted weekly).drop ((weeksSorted weekly).length - 2)

/-- Line 103: `weeks_sorted[-4:-2]`. -/
def priorWeeks (weekly : List SummaryRow) : List String :=
  ((weeksSorted weekly).take ((weeksSorted weekly).length - 2)).drop
    ((weeksSorted weekly).length - 4)

/-- Total `posts` for one tag over a list of summary rows. -/
def sumPosts (rows : List SummaryRow) (t : String) : Nat :=
  ((rows.filter (fun r => decide (r.tag = t))).map (fun r => r.posts)).sum

/-- Series `rows.groupby("all_tags")["posts"].sum()`: indexed by the
tags occurring in `rows` (sorted), valued by their summed posts. -/
def groupSum (rows : List SummaryRow) : List (String × Nat) :=
  (sortStrings ((rows.map (fun r => r.tag)).dedup)).map (fun t => (t, sumPosts rows t))

/-- Ordering used by `sort_values(ascending=False)` on the delta series:
defined values descending, `NaN` (`none`) last. -/
def deltaLEb : Option ℤ → Option ℤ → Bool
  | some x, some y => decide (y ≤ x)
  | some _, none => true
  | none, some _ => false
  | none, none => true

def sortDelta (l : List (String × Option ℤ)) : List (String × Option ℤ) :=
  List.insertionSort (fun a b => deltaLEb a.2 b.2 = true) l

/-- Pandas `sort_values(ascending=False)` on a Nat-valued series. -/
def sortNatDesc (l : List (String × Nat)) : List (String × Nat) :=
  List.insertionSort (fun a b : String × Nat => b.2 ≤ a.2) l

/-- Pandas `sort_values(ascending=False)` on an Int-valued series. -/
def sortIntDesc (l : List (String × ℤ)) : List (String × ℤ) :=
  List.insertionSort (fun a b : String × ℤ => b.2 ≤ a.2) l

/-- The aligned, `fillna`-patched value of the delta series
`(recent_sum - prior_sum).fillna(recent_sum)` at one tag: alignment of
the subtraction produces `NaN` for a tag missing on either side, and
`fillna(recent_sum)` recovers only tags present in `recent_sum`. -/
def deltaVal (recentS priorS : List (String × Nat)) (t : String) : Option ℤ :=
  match List.lookup t recentS, List.lookup t priorS with
  | some r, some p => some ((r : ℤ) - (p : ℤ))
  | some r, none => some ((r : ℤ))
  | none, _ => none

/-- Line 104: `recent_sum`. -/
def recentSeries (weekly : List SummaryRow) : List (String × Nat) :=
  groupSum (weekly.filter (fun r => (recentWeeks weekly).contains r.week))

/-- Line 105: `prior_sum`. -/
def priorSeries (weekly : List SummaryRow) : List (String × Nat) :=
  groupSum (weekly.filter (fun r => (priorWeeks weekly).contains r.week))

/-- The index of the delta series: pandas aligns the subtraction to the
sorted union of both indices. -/
def deltaIdx (weekly : List SummaryRow) : List String :=
  sortStrings (((recentSeries weekly).map Prod.fst ++
    (priorSeries weekly).map Prod.fst).dedup)

/-- Line 106: `(recent_sum - prior_sum).fillna(recent_sum)`. -/
def deltaSeries (weekly : List SummaryRow) : List (String × Option ℤ) :=
  (deltaIdx weekly).map (fun t => (t, deltaVal (recentSeries weekly) (priorSeries weekly) t))

/-- Lines 100-107 (the `try` branch): sort the delta series descending
(`NaN` last), truncate to 5 and keep the index. -/
def risingTags (weekly : List SummaryRow) : List String :=
  ((sortDelta (deltaSeries weekly)).take 5).map Prod.fst

/-- Line 109 (the `except` branch): rank every tag by total posts over
all weeks, descending, and take the top 5. -/
def fallbackRank (weekly : List SummaryRow) : List String :=
  ((sortNatDesc (groupSum weekly)).take 5).map Prod.fst

/-- The full pipeline up to `weekly_tag_summary` (lines 62-94). -/
def pipelineWeekly (mode : SentimentMode) (rows : List RawPost) : List SummaryRow :=
  makeWeekly (normalizePosts mode rows)

/-- The full pipeline up to the rising-tags list (lines 62-107). -/
def pipelineRising (mode : SentimentMode) (rows : List RawPost) : List String :=
  risingTags (pipelineWeekly mode rows)

/-! ## Claim-vocabulary definitions (for the trend-ranking claims) -/

/-- The claim's direct reading of a windowed post count: total `posts`
for tag `t` over the rows whose week lies in `wks` (0 if absent). -/
def postsInWeeks (weekly : List SummaryRow) (wks : List String) (t : String) : Nat :=
  ((weekly.filter (fun r => decide (r.week ∈ wks ∧ r.tag = t))).map (fun r => r.posts)).sum

/-- The trend ranking exactly as the spec sentence states it: every tag
of the table gets the integer delta `recent_posts - prior_posts`
(absence counting 0), ranked descending, top 5. -/
def specRisingTags (weekly : List SummaryRow) : List String :=
  ((sortIntDesc ((sortStrings ((weekly.map (fun r => r.tag)).dedup)).map (fun t =>
      (t, (postsInWeeks weekly (recentWeeks weekly) t : ℤ) -
          (postsInWeeks weekly (priorWeeks weekly) t : ℤ))))).take 5).map Prod.fst

/-- The amended trend ranking: only tags occurring in the recent or
prior window are ranked; a tag with recent presence gets the numeric
delta `recent_posts - prior_posts` (missing prior counts 0); a tag
present only in the prior window gets an undefined (`none`) delta and is
ordered after every defined one; top 5 of that order. -/
def amendedRisingTags (weekly : List SummaryRow) : List String :=
  ((sortDelta ((sortStrings (((weekly.filter (fun r =>
      decide (r.week ∈ recentWeeks weekly ∨ r.week ∈ priorWeeks weekly))).map
        (fun r => r.tag)).dedup)).map (fun t =>
      (t, if weekly.any (fun r => decide (r.week ∈ recentWeeks weekly ∧ r.tag = t))
          then some ((postsInWeeks weekly (recentWeeks weekly) t : ℤ) -
                     (postsInWeeks weekly (priorWeeks weekly) t : ℤ))
          else none)))).take 5).map Prod.fst

/-! ## Concrete instances used by witnesses and counterexamples -/

/-- A normalized post carrying only the fields the aggregation claims
inspect; the text-derived fields are inert here. -/
def mkNP (id : Nat) (tags : List String) (e : ℚ) (s : Option ℚ) (w : String) : NormPost :=
  { post_id := id, text := none, text_clean := "", hashtags := [], tokens := [],
    kw_tags := [], all_tags := tags, engagement := e, sentiment := s, week := w }

/-- The fixed 4-post input of spec §8.3: all in week 2025-W01, tag sets
`["denim"]`, `["denim","red"]`, `["red"]`, `[]`. -/
def ex4 : List NormPost :=
  [mkNP 1 ["denim"] 1 none "2025-W01",
   mkNP 2 ["denim", "red"] 2 none "2025-W01",
   mkNP 3 ["red"] 3 none "2025-W01",
   mkNP 4 [] 4 none "2025-W01"]

/-- A weekly summary spanning weeks W01-W03: `red` occurs only in the
prior window (W01), `blue` in both windows, `denim` only in the recent
window. -/
def ctable : List SummaryRow :=
  [{ week := "2025-W01", tag := "red", posts := 1, avg_engagement := 0, avg_sentiment := none },
   { week := "2025-W01", tag := "blue", posts := 5, avg_engagement := 0, avg_sentiment := none },
   { week := "2025-W02", tag := "blue", posts := 1, avg_engagement := 0, avg_sentiment := none },
   { week := "2025-W03", tag := "denim", posts := 1, avg_engagement := 0, avg_sentiment := none }]

/-- A one-row raw input used by witnesses. -/
def wrow : RawPost :=
  { post_id := 1, date := some ⟨"2025-W01"⟩, text := some "denim vibes #red",
    likes := some 10, views := some 50 }

/-- A raw row whose `text` cell is missing. -/
def rnan : RawPost :=
  { post_id := 1, date := some ⟨"2025-W01"⟩, text := none, likes := none, views := none }

/-! ## Order-theoretic facts about the string order -/

theorem lexLEb_cons {a b : Char} {as bs : List Char} :
    lexLEb (a :: as) (b :: bs) = true ↔
      a.toNat < b.toNat ∨ (a.toNat = b.toNat ∧ lexLEb as bs = true) := by
  simp only [lexLEb]
  split_ifs with h₁ h₂
  · simp [h₁]
  · simp only [Bool.false_eq_true, false_iff]
    rintro (h | ⟨h, -⟩)
    · exact h₁ h
    · exact absurd (h ▸ h₂) (Nat.lt_irrefl _)
  · have : a.toNat = b.toNat := Nat.le_antisymm (Nat.le_of_not_lt h₂) (Nat.le_of_not_lt h₁)
    simp [h₁, this]

theorem lexLEb_total : ∀ xs ys : List Char, lexLEb xs ys = true ∨ lexLEb ys xs = true
  | [], [] => Or.inl rfl
  | [], _ :: _ => Or.inl rfl
  | _ :: _, [] => Or.inr rfl
  | a :: as, b :: bs => by
    rcases Nat.lt_trichotomy a.toNat b.toNat with h | h | h
    · exact Or.inl (lexLEb_cons.mpr (Or.inl h))
    · rcases lexLEb_total as bs with ih | ih
      · exact Or.inl (lexLEb_cons.mpr (Or.inr ⟨h, ih⟩))
      · exact Or.inr (lexLEb_cons.mpr (Or.inr ⟨h.symm, ih⟩))
    · exact Or.inr (lexLEb_cons.mpr (Or.inl h))

theorem lexLEb_trans : ∀ xs ys zs : List Char,
    lexLEb xs ys = true → lexLEb ys zs = true → lexLEb xs zs = true
  | [], [], _ => fun _ h => h
  | [], _ :: _, [] => fun _ h => by simp [lexLEb] at h
  | [], _ :: _, _ :: _ => fun _ _ => rfl
  | _ :: _, [], _ => fun h _ => by simp [lexLEb] at h
  | _ :: _, _ :: _, [] => fun _ h => by simp [lexLEb] at h
  | a :: as, b :: bs, c :: cs => by
    intro h₁ h₂
    rcases lexLEb_cons.mp h₁ with hab | ⟨hab, h₁'⟩ <;>
      rcases lexLEb_cons.mp h₂ with hbc | ⟨hbc, h₂'⟩
    · exact lexLEb_cons.mpr (Or.inl (Nat.lt_trans hab hbc))
    · exact lexLEb_cons.mpr (Or.inl (hbc ▸ hab))
    · exact lexLEb_cons.mpr (Or.inl (hab ▸ hbc))
    · exact lexLEb_cons.mpr (Or.inr ⟨hab.trans hbc, lexLEb_trans as bs cs h₁' h₂'⟩)

theorem char_eq_of_toNat_eq {c d : Char} (h : c.toNat = d.toNat) : c = d := by
  rcases c with ⟨⟨cv, hc⟩, h1⟩
  rcases d with ⟨⟨dv, hd⟩, h2⟩
  simp only [Char.toNat, UInt32.toNat] at h
  subst h
  rfl

theorem lexLEb_antisymm : ∀ xs ys : List Char,
    lexLEb xs ys = true → lexLEb ys xs = true → xs = ys
  | [], [] => fun _ _ => rfl
  | [], _ :: _ => fun _ h => by simp [lexLEb] at h
  | _ :: _, [] => fun h _ => by simp [lexLEb] at h
  | a :: as, b :: bs => by
    intro h₁ h₂
    rcases lexLEb_cons.mp h₁ with hab | ⟨hab, h₁'⟩ <;>
      rcases lexLEb_cons.mp h₂ with hba | ⟨hba, h₂'⟩
    · exact absurd hba (Nat.lt_asymm hab)
    · exact absurd (hba ▸ hab) (Nat.lt_irrefl _)
    · exact absurd (hab ▸ hba) (Nat.lt_irrefl _)
    · rw [char_eq_of_toNat_eq hab, lexLEb_antisymm as bs h₁' h₂']

theorem string_eq_of_data_eq {a b : String} (h : a.data = b.data) : a = b := by
  cases a; cases b; exact congrArg String.mk h

theorem strLE_isTotal : IsTotal String strLE := ⟨fun a b => lexLEb_total a.data b.data⟩

theorem strLE_isTrans : IsTrans String strLE :=
  ⟨fun a b c h₁ h₂ => lexLEb_trans a.data b.data c.data h₁ h₂⟩

theorem strLE_isAntisymm : IsAntisymm String strLE :=
  ⟨fun a b h₁ h₂ => string_eq_of_data_eq (lexLEb_antisymm a.data b.data h₁ h₂)⟩

theorem mem_sortStrings {a : String} {l : List String} :
    a ∈ sortStrings l ↔ a ∈ l := List.mem_insertionSort strLE

theorem mem_pySortedSet {a : String} {l : List String} :
    a ∈ pySortedSet l ↔ a ∈ l := by
  rw [pySortedSet, mem_sortStrings, List.mem_dedup]

theorem sorted_sortStrings (l : List String) :
    List.Sorted strLE (sortStrings l) :=
  @List.sorted_insertionSort String strLE _ strLE_isTotal strLE_isTrans l

theorem nodup_sortStrings {l : List String} (h : l.Nodup) :
    (sortStrings l).Nodup := ((List.perm_insertionSort strLE l).nodup_iff).mpr h

theorem nodup_pySortedSet (l : List String) : (pySortedSet l).Nodup :=
  nodup_sortStrings (List.nodup_dedup l)

theorem sortStrings_eq_of_mem_iff {l₁ l₂ : List String}
    (h₁ : l₁.Nodup) (h₂ : l₂.Nodup) (h : ∀ a, a ∈ l₁ ↔ a ∈ l₂) :
    sortStrings l₁ = sortStrings l₂ := by
  have hp : l₁.Perm l₂ := (List.perm_ext_iff_of_nodup h₁ h₂).mpr h
  exact @List.eq_of_perm_of_sorted String strLE strLE_isAntisymm _ _
    (((List.perm_insertionSort strLE l₁).trans hp).trans
      (List.perm_insertionSort strLE l₂).symm)
    (sorted_sortStrings l₁) (sorted_sortStrings l₂)

theorem sortStrings_sorted_eq {l : List String} (h : List.Sorted strLE l) :
    sortStrings l = l := List.Sorted.insertionSort_eq h

/-! ## C3: engagement formula -/

/-- C3. Engagement formula: `engagement = likes + 0.1 * views` with
absent `likes`/`views` treated as 0 (not an error); `likes=10, views=50`
gives 15, absent likes with `views=20` gives 2; the result is
non-negative whenever the present inputs are non-negative. -/
theorem engagement_formula (likes views : Option ℚ) :
    engagementOf likes views = likes.getD 0 + 1 / 10 * views.getD 0
    ∧ engagementOf none views = engagementOf (some 0) views
    ∧ engagementOf likes none = engagementOf likes (some 0)
    ∧ engagementOf (some 10) (some 50) = 15
    ∧ engagementOf none (some 20) = 2
    ∧ ((∀ l, likes = some l → 0 ≤ l) → (∀ v, views = some v → 0 ≤ v) →
        0 ≤ engagementOf likes views) := by
  refine ⟨rfl, rfl, rfl, by norm_num [engagementOf], by norm_num [engagementOf], ?_⟩
  intro hl hv
  have h1 : 0 ≤ likes.getD 0 := by
    cases likes with
    | none => simp
    | some l => simpa using hl l rfl
  have h2 : 0 ≤ views.getD 0 := by
    cases views with
    | none => simp
    | some v => simpa using hv v rfl
  have : (0 : ℚ) ≤ 1 / 10 * views.getD 0 := by positivity
  simpa [engagementOf] using add_nonneg h1 this

/-- Witness for C3 at `likes = some 10`, `views = some 50`. -/
theorem engagement_formula_witness :
    engagementOf (some 10) (some 50) = 15 ∧ 0 ≤ engagementOf (some 10) (some 50) :=
  ⟨(engagement_formula (some 10) (some 50)).2.2.2.1,
   (engagement_formula (some 10) (some 50)).2.2.2.2.2
     (fun l h => by cases h; norm_num) (fun v h => by cases h; norm_num)⟩

/-! ## C4: tag extraction -/

/-- C4. Tag extraction: the per-post tag list is exactly
`(hashtags ∪ {tokens in the vocabulary}) ∩ vocabulary`, duplicate-free
and lexicographically sorted; anything outside the vocabulary is
silently dropped. -/
theorem tag_extraction (tokens hashtags : List String) :
    List.Sorted strLE (combine_tags hashtags (keyword_tags tokens))
    ∧ (combine_tags hashtags (keyword_tags tokens)).Nodup
    ∧ ∀ t, t ∈ combine_tags hashtags (keyword_tags tokens) ↔
        ((t ∈ hashtags ∨ t ∈ tokens) ∧ t ∈ TAG_WORDS) := by
  refine ⟨sorted_sortStrings _, nodup_pySortedSet _, fun t => ?_⟩
  rw [combine_tags, mem_pySortedSet, List.mem_filter, List.mem_append, keyword_tags,
    mem_pySortedSet, List.mem_filter]
  simp only [decide_eq_true_eq]
  constructor
  · rintro ⟨h | ⟨h, hv⟩, hv'⟩
    · exact ⟨Or.inl h, hv'⟩
    · exact ⟨Or.inr h, hv⟩
  · rintro ⟨h | h, hv⟩
    · exact ⟨Or.inl h, hv⟩
    · exact ⟨Or.inr ⟨h, hv⟩, hv⟩

/-! ## C5: absent text handling (code bug) -/

/-- C5 evaluation.  For a post with a missing `text` cell the pipeline's
`astype(str)` renders the cell as the string `"nan"` before `clean_text`
runs, so the cleaned text is `"nan"` (not `""`) and the token list is
`["nan"]` (not `[]`); the hashtag and tag lists are empty only because
`"nan"` happens not to be a vocabulary word.  This contradicts the
spec's "absent text is treated as the empty string": the `s or ""`
branch of `clean_text` is unreachable from `main`. -/
theorem absent_text_astype_nan :
    (normalizePosts none [rnan]).map
      (fun p => (p.text_clean, p.tokens, p.hashtags, p.all_tags)) =
    [("nan", ["nan"], [], [])] := by decide

/-! ## C7: date filtering -/

/-- C7. Date filtering: a row survives the date filter iff its `date`
parsed; the filter happens before any aggregation, so every pipeline
output is unchanged when the input is pre-restricted to its surviving
rows (unparseable rows are excluded from all outputs), and the run is a
total function (no error). -/
theorem date_filtering (rows : List RawPost) (mode : SentimentMode) :
    (∀ r : RawPost, r ∈ dropBadDates rows ↔ r ∈ rows ∧ r.date.isSome)
    ∧ normalizePosts mode rows = normalizePosts mode (dropBadDates rows)
    ∧ pipelineWeekly mode rows = pipelineWeekly mode (dropBadDates rows)
    ∧ pipelineRising mode rows = pipelineRising mode (dropBadDates rows) := by
  have hidem : dropBadDates (dropBadDates rows) = dropBadDates rows := by
    simp [dropBadDates, List.filter_filter]
  have hnorm : normalizePosts mode rows = normalizePosts mode (dropBadDates rows) := by
    rw [normalizePosts, normalizePosts, hidem]
  refine ⟨fun r => ?_, hnorm, ?_, ?_⟩
  · rw [dropBadDates, List.mem_filter]
  · rw [pipelineWeekly, pipelineWeekly, hnorm]
  · rw [pipelineRising, pipelineRising, pipelineWeekly, pipelineWeekly, hnorm]

/-! ## Membership plumbing for the aggregate table -/

theorem mem_sortKeys {k : String × String} {l : List (String × String)} :
    k ∈ sortKeys l ↔ k ∈ l := List.mem_insertionSort _

theorem mem_explode {ps : List NormPost} {q : NormPost × String} :
    q ∈ explode ps ↔ q.1 ∈ ps ∧ q.2 ∈ q.1.all_tags := by
  rcases q with ⟨p, t⟩
  simp only [explode, List.mem_flatMap, List.mem_map]
  constructor
  · rintro ⟨a, ha, t', ht', h⟩
    rcases Prod.mk.injEq .. ▸ h with ⟨rfl, rfl⟩
    exact ⟨ha, ht'⟩
  · rintro ⟨hp, ht⟩
    exact ⟨p, hp, t, ht, rfl⟩

theorem mem_groupKeys {k : String × String} {ex : List (NormPost × String)} :
    k ∈ groupKeys ex ↔ ∃ q ∈ ex, (q.1.week, q.2) = k := by
  rw [groupKeys, mem_sortKeys, List.mem_dedup, List.mem_map]

theorem mem_combine_tags {t : String} {hs kw : List String} :
    t ∈ combine_tags hs kw ↔ (t ∈ hs ∨ t ∈ kw) ∧ t ∈ TAG_WORDS := by
  rw [combine_tags, mem_pySortedSet, List.mem_filter, List.mem_append]
  simp

theorem normalizePosts_tags_vocab (mode : SentimentMode) (rows : List RawPost) :
    ∀ p ∈ normalizePosts mode rows, ∀ t ∈ p.all_tags, t ∈ TAG_WORDS := by
  intro p hp t ht
  rw [normalizePosts] at hp
  have : ∃ q ∈ (dropBadDates rows).map (fun r => normalizeRow r (r.date.getD ⟨""⟩)),
      p.all_tags = q.all_tags := by
    cases mode with
    | none =>
      obtain ⟨q, hq, rfl⟩ := List.mem_map.mp hp
      exact ⟨q, hq, rfl⟩
    | some f =>
      obtain ⟨q, hq, rfl⟩ := List.mem_map.mp hp
      exact ⟨q, hq, rfl⟩
  obtain ⟨q, hq, htags⟩ := this
  obtain ⟨r, _, rfl⟩ := List.mem_map.mp hq
  rw [htags] at ht
  have : t ∈ combine_tags (extract_hashtags (lowerStr (clean_text (astypeStr r.text))))
      (keyword_tags (findTokens (lowerStr (clean_text (astypeStr r.text))))) := by
    simpa [normalizeRow] using ht
  exact (mem_combine_tags.mp this).2

/-! ## C8: tag vocabulary closure -/

/-- C8. Tag vocabulary closure: every row of the emitted weekly tag
summary has a `tag` drawn from the fixed controlled vocabulary
`TAG_WORDS` (built once from the color/style/mood word lists and never
mutated). -/
theorem tag_vocabulary_closure (rows : List RawPost) (mode : SentimentMode) :
    ∀ row ∈ pipelineWeekly mode rows, row.tag ∈ TAG_WORDS := by
  intro row hrow
  rw [pipelineWeekly, makeWeekly] at hrow
  obtain ⟨k, hk, rfl⟩ := List.mem_map.mp hrow
  obtain ⟨q, hq, hkey⟩ := mem_groupKeys.mp hk
  obtain ⟨hq1, hq2⟩ := mem_explode.mp hq
  subst hkey
  have htag : (rowOf (explode (normalizePosts mode rows)) (q.1.week, q.2)).tag = q.2 := rfl
  rw [htag]
  exact normalizePosts_tags_vocab mode rows q.1 hq1 q.2 hq2

/-- Witness for C8: a concrete run whose single summary row has tag
`"denim"`, which the theorem places in the vocabulary. -/
theorem tag_vocabulary_closure_witness :
    (rowOf (explode (normalizePosts none [wrow])) ("2025-W01", "denim")).tag ∈ TAG_WORDS :=
  tag_vocabulary_closure [wrow] none _
    (List.mem_map_of_mem (rowOf (explode (normalizePosts none [wrow]))) (by decide))

/-! ## C1: weekly aggregation -/

theorem filter_eq_singleton_of_nodup {l : List String} (h : l.Nodup) (a : String) :
    l.filter (fun t => decide (t = a)) = if a ∈ l then [a] else [] := by
  induction l with
  | nil => simp
  | cons b bs ih =>
    rcases List.nodup_cons.mp h with ⟨hb, hbs⟩
    by_cases hba : b = a
    · subst hba
      have : bs.filter (fun t => decide (t = b)) = [] := by
        rw [List.filter_eq_nil_iff]
        intro x hx
        simp only [decide_eq_true_eq]
        intro hxb
        exact hb (hxb ▸ hx)
      simp [List.filter_cons, this]
    · have hfc : (b :: bs).filter (fun t => decide (t = a)) =
          bs.filter (fun t => decide (t = a)) := by
        rw [List.filter_cons]
        simp [hba]
      rw [hfc, ih hbs]
      by_cases ha : a ∈ bs
      · rw [if_pos ha, if_pos (List.mem_cons_of_mem b ha)]
      · rw [if_neg ha, if_neg (fun hmem => by
          rcases List.mem_cons.mp hmem with h | h
          · exact hba h.symm
          · exact ha h)]

theorem map_pair_eta (l : List (String × String)) :
    l.map (fun k => (k.1, k.2)) = l := by
  induction l with
  | nil => rfl
  | cons a t ih => simp [ih]

theorem groupRows_append (ex₁ ex₂ : List (NormPost × String)) (k : String × String) :
    groupRows (ex₁ ++ ex₂) k = groupRows ex₁ k ++ groupRows ex₂ k := by
  rw [groupRows, groupRows, groupRows, List.filter_append, List.map_append]

theorem groupRows_explode (k : String × String) :
    ∀ ps : List NormPost, (∀ p ∈ ps, p.all_tags.Nodup) →
      groupRows (explode ps) k =
        ps.filter (fun p => decide (p.week = k.1 ∧ k.2 ∈ p.all_tags))
  | [], _ => rfl
  | p :: ps, h => by
    have hnd : p.all_tags.Nodup := h p (List.mem_cons_self p ps)
    have ih := groupRows_explode k ps (fun q hq => h q (List.mem_cons_of_mem p hq))
    have hexp : explode (p :: ps) =
        (p.all_tags.map (fun t => (p, t))) ++ explode ps := by
      rw [explode, List.flatMap_cons]; rfl
    rw [hexp, groupRows_append, ih, List.filter_cons]
    by_cases hw : p.week = k.1
    · have hhead : groupRows (p.all_tags.map (fun t => (p, t))) k =
          (p.all_tags.filter (fun t => decide (t = k.2))).map (fun _ => p) := by
        rw [groupRows, List.filter_map, List.map_map]
        congr 1
        apply List.filter_congr
        intro t _
        simp [Function.comp, hw]
      rw [hhead, filter_eq_singleton_of_nodup hnd k.2]
      by_cases ht : k.2 ∈ p.all_tags
      · simp [ht, hw]
      · simp [ht, hw]
    · have hhead : groupRows (p.all_tags.map (fun t => (p, t))) k = [] := by
        rw [groupRows, List.filter_map]
        have : p.all_tags.filter ((fun r : NormPost × String =>
            decide (r.1.week = k.1 ∧ r.2 = k.2)) ∘ (fun t => (p, t))) = [] := by
          rw [List.filter_eq_nil_iff]
          intro t _
          simp [Function.comp, hw]
        rw [this]; rfl
      simp [hhead, hw]

/-- C1. Weekly aggregation: the summary is keyed by distinct (week, tag)
pairs; a pair occurs iff some post of that week carries that tag (so a
post contributes once per tag and zero-tag posts contribute nothing);
`posts` counts the exploded rows of the group, equivalently the posts of
that week carrying that tag; `avg_engagement` is the mean engagement of
the group and `avg_sentiment` the mean of its defined sentiments
(absent when none are defined).  For the fixed §8.3 input `ex4` the
table is exactly the two rows (2025-W01, denim, 2), (2025-W01, red, 2). -/
theorem weekly_aggregation (ps : List NormPost) (hnd : ∀ p ∈ ps, p.all_tags.Nodup) :
    ((makeWeekly ps).map (fun r => (r.week, r.tag))).Nodup
    ∧ (∀ w t, (∃ r ∈ makeWeekly ps, r.week = w ∧ r.tag = t) ↔
        (∃ p ∈ ps, p.week = w ∧ t ∈ p.all_tags))
    ∧ (∀ r ∈ makeWeekly ps,
        r.posts = (explode ps).countP (fun q => decide (q.1.week = r.week ∧ q.2 = r.tag))
        ∧ r.posts = (ps.filter (fun p => decide (p.week = r.week ∧ r.tag ∈ p.all_tags))).length
        ∧ 0 < r.posts
        ∧ r.avg_engagement =
            ((ps.filter (fun p => decide (p.week = r.week ∧ r.tag ∈ p.all_tags))).map
              (fun p => p.engagement)).sum / (r.posts : ℚ)
        ∧ r.avg_sentiment =
            listMean ((ps.filter (fun p => decide (p.week = r.week ∧ r.tag ∈ p.all_tags))).filterMap
              (fun p => p.sentiment)))
    ∧ (makeWeekly ex4).map (fun r => (r.week, r.tag, r.posts)) =
        [("2025-W01", "denim", 2), ("2025-W01", "red", 2)] := by
  refine ⟨?_, ?_, ?_, by decide⟩
  · rw [makeWeekly, List.map_map]
    show (List.map (fun k : String × String => (k.1, k.2)) (groupKeys (explode ps))).Nodup
    rw [map_pair_eta]
    exact ((List.perm_insertionSort _ _).nodup_iff).mpr (List.nodup_dedup _)
  · intro w t
    constructor
    · rintro ⟨r, hr, hw, ht⟩
      rw [makeWeekly] at hr
      obtain ⟨k, hk, rfl⟩ := List.mem_map.mp hr
      obtain ⟨q, hq, hkey⟩ := mem_groupKeys.mp hk
      obtain ⟨hq1, hq2⟩ := mem_explode.mp hq
      have hw' : k.1 = w := hw
      have ht' : k.2 = t := ht
      have h1 : q.1.week = k.1 := congrArg Prod.fst hkey
      have h2 : q.2 = k.2 := congrArg Prod.snd hkey
      refine ⟨q.1, hq1, h1.trans hw', ?_⟩
      rw [← ht', ← h2]
      exact hq2
    · rintro ⟨p, hp, rfl, ht⟩
      have hq : ((p, t) : NormPost × String) ∈ explode ps := mem_explode.mpr ⟨hp, ht⟩
      have hk : (p.week, t) ∈ groupKeys (explode ps) :=
        mem_groupKeys.mpr ⟨(p, t), hq, rfl⟩
      exact ⟨rowOf (explode ps) (p.week, t),
        List.mem_map_of_mem (rowOf (explode ps)) hk, rfl, rfl⟩
  · intro r hr
    rw [makeWeekly] at hr
    obtain ⟨k, hk, rfl⟩ := List.mem_map.mp hr
    have hgr := groupRows_explode k ps hnd
    have hposts : (rowOf (explode ps) k).posts =
        (ps.filter (fun p => decide (p.week = k.1 ∧ k.2 ∈ p.all_tags))).length := by
      show (groupRows (explode ps) k).length = _
      rw [hgr]
    have hcount : (rowOf (explode ps) k).posts =
        (explode ps).countP (fun q => decide (q.1.week = k.1 ∧ q.2 = k.2)) := by
      show (groupRows (explode ps) k).length = _
      rw [groupRows, List.length_map, ← List.countP_eq_length_filter]
    have hpos : 0 < (rowOf (explode ps) k).posts := by
      obtain ⟨q, hq, hkey⟩ := mem_groupKeys.mp hk
      obtain ⟨hq1, hq2⟩ := mem_explode.mp hq
      rw [hposts]
      apply List.length_pos.mpr
      apply List.ne_nil_of_mem (a := q.1)
      rw [List.mem_filter]
      refine ⟨hq1, ?_⟩
      simp only [decide_eq_true_eq]
      refine ⟨congrArg Prod.fst hkey, ?_⟩
      have h2 : q.2 = k.2 := congrArg Prod.snd hkey
      rw [← h2]
      exact hq2
    refine ⟨hcount, hposts, hpos, ?_, ?_⟩
    · show ((groupRows (explode ps) k).map (fun p => p.engagement)).sum /
          ((groupRows (explode ps) k).length : ℚ) =
        ((ps.filter (fun p => decide (p.week = k.1 ∧ k.2 ∈ p.all_tags))).map
          (fun p => p.engagement)).sum / ((rowOf (explode ps) k).posts : ℚ)
      rw [hposts, hgr]
    · show listMean ((groupRows (explode ps) k).filterMap (fun p => p.sentiment)) =
        listMean ((ps.filter (fun p => decide (p.week = k.1 ∧ k.2 ∈ p.all_tags))).filterMap
          (fun p => p.sentiment))
      rw [hgr]

/-- Witness for C1: the §8.3 input `ex4` satisfies the nodup-tags
hypothesis, and the theorem yields the key-uniqueness of its summary. -/
theorem weekly_aggregation_witness :
    ((makeWeekly ex4).map (fun r => (r.week, r.tag))).Nodup ∧
      (makeWeekly ex4).map (fun r => (r.week, r.tag, r.posts)) =
        [("2025-W01", "denim", 2), ("2025-W01", "red", 2)] :=
  ⟨(weekly_aggregation ex4 (by decide)).1, (weekly_aggregation ex4 (by decide)).2.2.2⟩

/-! ## C9: sentiment noninterference -/

theorem explode_mapSent (u : NormPost → Option ℚ) (ps : List NormPost) :
    explode (ps.map (fun p => { p with sentiment := u p })) =
      (explode ps).map (fun q => ({ q.1 with sentiment := u q.1 }, q.2)) := by
  induction ps with
  | nil => rfl
  | cons p ps ih =>
    simp only [List.map_cons, explode, List.flatMap_cons] at ih ⊢
    rw [List.map_append, ih, List.map_map]
    rfl

theorem groupKeys_mapSent (u : NormPost → Option ℚ) (ps : List NormPost) :
    groupKeys (explode (ps.map (fun p => { p with sentiment := u p }))) =
      groupKeys (explode ps) := by
  rw [groupKeys, explode_mapSent, List.map_map]
  rfl

theorem groupRows_mapSent (u : NormPost → Option ℚ) (ps : List NormPost) (k : String × String) :
    groupRows (explode (ps.map (fun p => { p with sentiment := u p }))) k =
      (groupRows (explode ps) k).map (fun p => { p with sentiment := u p }) := by
  rw [explode_mapSent, groupRows, List.filter_map, List.map_map, groupRows, List.map_map]
  rfl

theorem makeWeekly_mapSent (u : NormPost → Option ℚ) (ps : List NormPost) :
    makeWeekly (ps.map (fun p => { p with sentiment := u p })) =
      (groupKeys (explode ps)).map (fun k =>
        { rowOf (explode ps) k with
            avg_sentiment :=
              listMean ((groupRows (explode ps) k).filterMap (fun p => u p)) }) := by
  rw [makeWeekly, groupKeys_mapSent]
  refine List.map_congr_left (fun k _ => ?_)
  simp only [rowOf, groupRows_mapSent, List.length_map, List.map_map, List.filterMap_map]
  rfl

theorem makeWeekly_mapSent_none (ps : List NormPost) :
    makeWeekly (ps.map (fun p => { p with sentiment := none })) =
      (groupKeys (explode ps)).map (fun k =>
        { rowOf (explode ps) k with avg_sentiment := none }) := by
  have h := makeWeekly_mapSent (fun _ => none) ps
  rw [h]
  refine List.map_congr_left (fun k _ => ?_)
  have h0 : (groupRows (explode ps) k).filterMap
      (fun p => (fun _ : NormPost => (none : Option ℚ)) p) = [] := by simp
  rw [h0]
  rfl

/-- C9. Sentiment noninterference: on the same input, a run with the
sentiment capability disabled yields exactly the enabled run's weekly
summary with every `avg_sentiment` erased to `none` — so every other
column (`week`, `tag`, `posts`, `avg_engagement`) agrees row for row,
and every disabled-run `avg_sentiment` is absent. -/
theorem sentiment_noninterference (rows : List RawPost) (f : String → ℚ) :
    pipelineWeekly none rows =
      (pipelineWeekly (some f) rows).map (fun r => { r with avg_sentiment := none }) := by
  have e1 : pipelineWeekly none rows =
      makeWeekly (((dropBadDates rows).map (fun r => normalizeRow r (r.date.getD ⟨""⟩))).map
        (fun p => { p with sentiment := (none : Option ℚ) })) := rfl
  have e2 : pipelineWeekly (some f) rows =
      makeWeekly (((dropBadDates rows).map (fun r => normalizeRow r (r.date.getD ⟨""⟩))).map
        (fun p => { p with sentiment := (fun q : NormPost => some (f (q.text.getD ""))) p })) := rfl
  rw [e1, e2, makeWeekly_mapSent_none, makeWeekly_mapSent, List.map_map]
  refine List.map_congr_left (fun k _ => ?_)
  rfl

/-! ## C10: rising-list membership invariant -/

theorem map_self_strings (l : List String) : l.map (fun t => t) = l := by
  induction l with
  | nil => rfl
  | cons a t ih => simp [ih]

theorem groupSum_keys (rows : List SummaryRow) :
    (groupSum rows).map Prod.fst = sortStrings ((rows.map (fun r => r.tag)).dedup) := by
  rw [groupSum, List.map_map]
  exact map_self_strings _

theorem mem_groupSum_keys {rows : List SummaryRow} {t : String} :
    t ∈ (groupSum rows).map Prod.fst ↔ ∃ r ∈ rows, r.tag = t := by
  rw [groupSum_keys, mem_sortStrings, List.mem_dedup, List.mem_map]

theorem nodup_groupSum_keys (rows : List SummaryRow) :
    ((groupSum rows).map Prod.fst).Nodup := by
  rw [groupSum_keys]
  exact nodup_sortStrings (List.nodup_dedup _)

theorem mem_deltaIdx {weekly : List SummaryRow} {t : String} :
    t ∈ deltaIdx weekly ↔
      (∃ r ∈ weekly, ((recentWeeks weekly).contains r.week ∧ r.tag = t)) ∨
      (∃ r ∈ weekly, ((priorWeeks weekly).contains r.week ∧ r.tag = t)) := by
  rw [deltaIdx, mem_sortStrings, List.mem_dedup, List.mem_append]
  constructor
  · rintro (h | h)
    · obtain ⟨r, hr, hst⟩ := mem_groupSum_keys.mp h
      obtain ⟨hr', hw⟩ := List.mem_filter.mp hr
      exact Or.inl ⟨r, hr', hw, hst⟩
    · obtain ⟨r, hr, hst⟩ := mem_groupSum_keys.mp h
      obtain ⟨hr', hw⟩ := List.mem_filter.mp hr
      exact Or.inr ⟨r, hr', hw, hst⟩
  · rintro (⟨r, hr, hw, hst⟩ | ⟨r, hr, hw, hst⟩)
    · exact Or.inl (mem_groupSum_keys.mpr ⟨r, List.mem_filter.mpr ⟨hr, hw⟩, hst⟩)
    · exact Or.inr (mem_groupSum_keys.mpr ⟨r, List.mem_filter.mpr ⟨hr, hw⟩, hst⟩)

theorem deltaSeries_keys (weekly : List SummaryRow) :
    (deltaSeries weekly).map Prod.fst = deltaIdx weekly := by
  rw [deltaSeries, List.map_map]
  exact map_self_strings _

theorem nodup_deltaIdx (weekly : List SummaryRow) : (deltaIdx weekly).Nodup :=
  nodup_sortStrings (List.nodup_dedup _)

theorem risingTags_sub (weekly : List SummaryRow) :
    ∀ t ∈ risingTags weekly, ∃ r ∈ weekly, r.tag = t := by
  intro t ht
  rw [risingTags] at ht
  obtain ⟨pair, hp, rfl⟩ := List.mem_map.mp ht
  have h1 : pair ∈ sortDelta (deltaSeries weekly) :=
    (List.take_sublist 5 _).mem hp
  have h2 : pair ∈ deltaSeries weekly :=
    (List.perm_insertionSort _ _).mem_iff.mp h1
  obtain ⟨t', ht', hpair⟩ := List.mem_map.mp h2
  have hfst : pair.1 = t' := by rw [← hpair]
  rw [hfst]
  rcases mem_deltaIdx.mp ht' with ⟨r, hr, _, hst⟩ | ⟨r, hr, _, hst⟩
  · exact ⟨r, hr, hst⟩
  · exact ⟨r, hr, hst⟩

theorem risingTags_len (weekly : List SummaryRow) : (risingTags weekly).length ≤ 5 := by
  rw [risingTags, List.length_map, List.length_take]
  exact min_le_left _ _

theorem risingTags_nodup (weekly : List SummaryRow) : (risingTags weekly).Nodup := by
  rw [risingTags]
  have hall : ((sortDelta (deltaSeries weekly)).map Prod.fst).Nodup := by
    have hperm : (sortDelta (deltaSeries weekly)).map Prod.fst =
        (sortDelta (deltaSeries weekly)).map Prod.fst := rfl
    have h1 : ((sortDelta (deltaSeries weekly)).map Prod.fst).Perm
        ((deltaSeries weekly).map Prod.fst) :=
      (List.perm_insertionSort _ _).map Prod.fst
    rw [deltaSeries_keys] at h1
    exact h1.nodup_iff.mpr (nodup_deltaIdx weekly)
  exact ((List.take_sublist 5 _).map Prod.fst).nodup hall

theorem fallbackRank_sub (weekly : List SummaryRow) :
    ∀ t ∈ fallbackRank weekly, ∃ r ∈ weekly, r.tag = t := by
  intro t ht
  rw [fallbackRank] at ht
  obtain ⟨pair, hp, rfl⟩ := List.mem_map.mp ht
  have h1 : pair ∈ sortNatDesc (groupSum weekly) :=
    (List.take_sublist 5 _).mem hp
  have h2 : pair ∈ groupSum weekly :=
    (List.perm_insertionSort _ _).mem_iff.mp h1
  have : pair.1 ∈ (groupSum weekly).map Prod.fst := List.mem_map_of_mem Prod.fst h2
  exact mem_groupSum_keys.mp this

theorem fallbackRank_len (weekly : List SummaryRow) : (fallbackRank weekly).length ≤ 5 := by
  rw [fallbackRank, List.length_map, List.length_take]
  exact min_le_left _ _

theorem fallbackRank_nodup (weekly : List SummaryRow) : (fallbackRank weekly).Nodup := by
  rw [fallbackRank]
  have hall : ((sortNatDesc (groupSum weekly)).map Prod.fst).Nodup := by
    have h1 : ((sortNatDesc (groupSum weekly)).map Prod.fst).Perm
        ((groupSum weekly).map Prod.fst) :=
      (List.perm_insertionSort _ _).map Prod.fst
    exact h1.nodup_iff.mpr (nodup_groupSum_keys weekly)
  exact ((List.take_sublist 5 _).map Prod.fst).nodup hall

/-- C10. Rising-list membership invariant: for every input, each tag the
trend ranker emits — through the delta ranking or the fallback ranking —
is the tag of at least one weekly-summary row, and either list has at
most 5 entries and no duplicates. -/
theorem rising_membership (rows : List RawPost) (mode : SentimentMode) :
    (∀ t ∈ pipelineRising mode rows, ∃ r ∈ pipelineWeekly mode rows, r.tag = t)
    ∧ (pipelineRising mode rows).length ≤ 5
    ∧ (pipelineRising mode rows).Nodup
    ∧ (∀ t ∈ fallbackRank (pipelineWeekly mode rows),
        ∃ r ∈ pipelineWeekly mode rows, r.tag = t)
    ∧ (fallbackRank (pipelineWeekly mode rows)).length ≤ 5
    ∧ (fallbackRank (pipelineWeekly mode rows)).Nodup :=
  ⟨risingTags_sub _, risingTags_len _, risingTags_nodup _,
   fallbackRank_sub _, fallbackRank_len _, fallbackRank_nodup _⟩

/-- Witness for C10: on the one-post input `[wrow]` the rising list
contains `"denim"`, and the theorem produces a summary row carrying it. -/
theorem rising_membership_witness :
    ∃ r ∈ pipelineWeekly none [wrow], r.tag = "denim" :=
  (rising_membership [wrow] none).1 "denim" (by decide)

/-! ## C6: rising-tag fallback behaviour on short histories -/

theorem lookup_map_key (keys : List String) (f : String → Nat) (t : String) :
    List.lookup t (keys.map (fun k => (k, f k))) =
      if t ∈ keys then some (f t) else none := by
  induction keys with
  | nil => simp
  | cons k ks ih =>
    rw [List.map_cons, List.lookup_cons]
    by_cases h : t = k
    · subst h
      simp
    · have hb : (t == k) = false := beq_false_of_ne h
      simp [hb, ih, h]

theorem lookup_groupSum (rows : List SummaryRow) (t : String) :
    List.lookup t (groupSum rows) =
      if t ∈ rows.map (fun r => r.tag) then some (sumPosts rows t) else none := by
  rw [groupSum, lookup_map_key]
  by_cases h : t ∈ rows.map (fun r => r.tag)
  · rw [if_pos h, if_pos]
    rwa [mem_sortStrings, List.mem_dedup]
  · rw [if_neg h, if_neg]
    rw [mem_sortStrings, List.mem_dedup]
    exact h

theorem deltaLEb_cast (x y : Nat) :
    (deltaLEb (some (x : ℤ)) (some (y : ℤ)) = true) ↔ (y ≤ x) := by
  simp [deltaLEb]

theorem sortDelta_map_cast (l : List (String × Nat)) :
    sortDelta (l.map (fun p : String × Nat => (p.1, some ((p.2 : ℤ))))) =
      (sortNatDesc l).map (fun p : String × Nat => (p.1, some ((p.2 : ℤ)))) := by
  rw [sortDelta, sortNatDesc]
  induction l with
  | nil => rfl
  | cons a l ih =>
    rw [List.map_cons]
    show List.orderedInsert _ (a.1, some ((a.2 : ℤ)))
        (List.insertionSort _ (l.map (fun p : String × Nat => (p.1, some ((p.2 : ℤ)))))) = _
    rw [ih]
    rw [← List.map_orderedInsert (fun x y : String × Nat => y.2 ≤ x.2)
      (fun x y : String × Option ℤ => deltaLEb x.2 y.2 = true)
      (fun p : String × Nat => (p.1, some ((p.2 : ℤ))))
      (List.insertionSort (fun x y : String × Nat => y.2 ≤ x.2) l) a
      (fun b _ => (deltaLEb_cast b.2 a.2).symm.trans Iff.rfl |>.symm |>.symm)
      (fun b _ => Iff.symm (deltaLEb_cast a.2 b.2))]
    rfl

theorem weekly_weeks_eq_nil {weekly : List SummaryRow}
    (h : (weeksSorted weekly).length = 0) : weekly = [] := by
  rw [weeksSorted] at h
  have h1 : (sortStrings ((weekly.map (fun r => r.week)).dedup)).length =
      ((weekly.map (fun r => r.week)).dedup).length :=
    (List.perm_insertionSort strLE _).length_eq
  rw [h] at h1
  have h2 : (weekly.map (fun r => r.week)).dedup = [] :=
    List.length_eq_zero.mp h1.symm
  have h3 : weekly.map (fun r => r.week) = [] := (List.dedup_eq_nil _).mp h2
  exact List.map_eq_nil_iff.mp h3

theorem groupSum_entries (rows : List SummaryRow) :
    ∀ p ∈ groupSum rows, p = (p.1, sumPosts rows p.1) := by
  intro p hp
  obtain ⟨t, _, rfl⟩ := List.mem_map.mp hp
  rfl

theorem rising_eq_fallback_short (weekly : List SummaryRow)
    (hw : (weeksSorted weekly).length ≤ 1) :
    risingTags weekly = fallbackRank weekly
    ∧ (weekly ≠ [] → risingTags weekly ≠ []) := by
  rcases Nat.le_one_iff_eq_zero_or_eq_one.mp hw with h0 | h1
  · have hnil : weekly = [] := weekly_weeks_eq_nil h0
    subst hnil
    exact ⟨by decide, fun h => absurd rfl h⟩
  · obtain ⟨w, hws⟩ := List.length_eq_one.mp h1
    have hrec : recentWeeks weekly = [w] := by
      rw [recentWeeks, hws]
      rfl
    have hpri : priorWeeks weekly = [] := by
      rw [priorWeeks, hws]
      rfl
    have hfrec : weekly.filter (fun r => (recentWeeks weekly).contains r.week) = weekly := by
      rw [hrec, List.filter_eq_self]
      intro r hr
      have : r.week ∈ weeksSorted weekly := by
        rw [weeksSorted, mem_sortStrings, List.mem_dedup]
        exact List.mem_map_of_mem _ hr
      rw [hws] at this
      have : r.week = w := List.mem_singleton.mp this
      simp [this]
    have hfpri : weekly.filter (fun r => (priorWeeks weekly).contains r.week) = [] := by
      rw [hpri]
      have : (fun r : SummaryRow => (([] : List String)).contains r.week) =
          (fun _ : SummaryRow => false) := rfl
      rw [this, List.filter_false]
    have hrecS : recentSeries weekly = groupSum weekly := by
      rw [recentSeries, hfrec]
    have hpriS : priorSeries weekly = ([] : List (String × Nat)) := by
      rw [priorSeries, hfpri]
      rfl
    have hidx : deltaIdx weekly = (groupSum weekly).map Prod.fst := by
      rw [deltaIdx, hrecS, hpriS]
      have hkeys := groupSum_keys weekly
      rw [List.map_nil, List.append_nil, hkeys]
      have hnd : (sortStrings ((weekly.map (fun r => r.tag)).dedup)).Nodup :=
        nodup_sortStrings (List.nodup_dedup _)
      rw [List.dedup_eq_self.mpr hnd]
      exact sortStrings_sorted_eq (sorted_sortStrings _)
    have hds : deltaSeries weekly =
        (groupSum weekly).map (fun p => (p.1, some ((p.2 : ℤ)))) := by
      rw [deltaSeries, hrecS, hpriS, hidx, List.map_map]
      refine List.map_congr_left (fun p hp => ?_)
      have hpe := groupSum_entries weekly p hp
      have hmem : p.1 ∈ weekly.map (fun r => r.tag) := by
        have : p.1 ∈ (groupSum weekly).map Prod.fst := List.mem_map_of_mem Prod.fst hp
        rw [groupSum_keys, mem_sortStrings, List.mem_dedup] at this
        exact this
      show (p.1, deltaVal (groupSum weekly) [] p.1) = (p.1, some ((p.2 : ℤ)))
      rw [deltaVal, lookup_groupSum, if_pos hmem, List.lookup_nil]
      rw [show p.2 = sumPosts weekly p.1 from congrArg Prod.snd hpe]
    have hmain : risingTags weekly = fallbackRank weekly := by
      rw [risingTags, fallbackRank, hds, sortDelta_map_cast, ← List.map_take,
        List.map_map]
      rfl
    refine ⟨hmain, fun hne => ?_⟩
    rw [hmain, fallbackRank]
    have hkeysne : (groupSum weekly).length ≠ 0 := by
      rw [groupSum, List.length_map]
      intro hzero
      have hperm : (sortStrings ((weekly.map (fun r => r.tag)).dedup)).length =
          ((weekly.map (fun r => r.tag)).dedup).length :=
        (List.perm_insertionSort strLE _).length_eq
      rw [hzero] at hperm
      have h2 : (weekly.map (fun r => r.tag)).dedup = [] :=
        List.length_eq_zero.mp hperm.symm
      have h3 : weekly.map (fun r => r.tag) = [] := (List.dedup_eq_nil _).mp h2
      exact hne (List.map_eq_nil_iff.mp h3)
    apply List.length_pos.mp
    rw [List.length_map, List.length_take]
    have : (sortNatDesc (groupSum weekly)).length = (groupSum weekly).length :=
      (List.perm_insertionSort _ _).length_eq
    rw [this]
    exact lt_min (by norm_num) (Nat.pos_of_ne_zero hkeysne)

theorem weekly_weeks_subset (ps : List NormPost) :
    ∀ w ∈ (makeWeekly ps).map (fun r => r.week), w ∈ ps.map (fun p => p.week) := by
  intro w hw
  obtain ⟨r, hr, rfl⟩ := List.mem_map.mp hw
  rw [makeWeekly] at hr
  obtain ⟨k, hk, rfl⟩ := List.mem_map.mp hr
  obtain ⟨q, hq, hkey⟩ := mem_groupKeys.mp hk
  obtain ⟨hq1, _⟩ := mem_explode.mp hq
  have hwk : (rowOf (explode ps) k).week = k.1 := rfl
  rw [hwk, ← congrArg Prod.fst hkey]
  exact List.mem_map_of_mem _ hq1

/-- C6. Rising-tag fallback: when the surviving posts span fewer than 2
distinct ISO weeks, the rising-tags list coincides with the
total-post-count ranking (the `except` branch's `fallbackRank`), the
computation is a total function rather than an error, and the list is
non-empty whenever the weekly table has any tagged row at all. -/
theorem rising_fallback_short (rows : List RawPost) (mode : SentimentMode)
    (hw : (((normalizePosts mode rows).map (fun p => p.week)).dedup).length < 2) :
    pipelineRising mode rows = fallbackRank (pipelineWeekly mode rows)
    ∧ (pipelineWeekly mode rows ≠ [] → pipelineRising mode rows ≠ []) := by
  have hsubs : ((pipelineWeekly mode rows).map (fun r => r.week)).dedup ⊆
      ((normalizePosts mode rows).map (fun p => p.week)).dedup := by
    intro w hwmem
    rw [List.mem_dedup] at hwmem ⊢
    exact weekly_weeks_subset _ w hwmem
  have hlen : (weeksSorted (pipelineWeekly mode rows)).length ≤ 1 := by
    have h1 : (weeksSorted (pipelineWeekly mode rows)).length =
        (((pipelineWeekly mode rows).map (fun r => r.week)).dedup).length :=
      (List.perm_insertionSort strLE _).length_eq
    have h2 := ((List.nodup_dedup
      ((pipelineWeekly mode rows).map (fun r => r.week))).subperm hsubs).length_le
    omega
  exact rising_eq_fallback_short _ hlen

/-- Witness for C6: the single-week input `[wrow]`. -/
theorem rising_fallback_short_witness :
    pipelineRising none [wrow] = fallbackRank (pipelineWeekly none [wrow])
    ∧ pipelineRising none [wrow] ≠ [] :=
  ⟨(rising_fallback_short [wrow] none (by decide)).1,
   (rising_fallback_short [wrow] none (by decide)).2 (by decide)⟩

/-! ## C2: trend ranking (corrected) -/

/-- C2 counterexample.  On `ctable` (3 distinct weeks, so the claim's
hypothesis holds) the code ranks `red` — a tag present only in the prior
window — dead last with an undefined (`NaN`) delta, while the claim's
`delta = recent_posts - prior_posts` assigns it -1 and ranks it above
`blue` (delta -4): the code emits [denim, blue, red], the claim
prescribes [denim, red, blue]. -/
theorem rising_delta_counterexample :
    2 ≤ (weeksSorted ctable).length
    ∧ risingTags ctable = ["denim", "blue", "red"]
    ∧ specRisingTags ctable = ["denim", "red", "blue"]
    ∧ risingTags ctable ≠ specRisingTags ctable := by decide

theorem contains_mem {l : List String} {a : String} :
    l.contains a = true ↔ a ∈ l := List.elem_iff

theorem mem_series_keys {weekly : List SummaryRow} {wks : List String} {t : String} :
    t ∈ (groupSum (weekly.filter (fun r => wks.contains r.week))).map Prod.fst ↔
      ∃ r ∈ weekly, r.week ∈ wks ∧ r.tag = t := by
  rw [mem_groupSum_keys]
  constructor
  · rintro ⟨r, hr, hst⟩
    obtain ⟨hr', hw⟩ := List.mem_filter.mp hr
    exact ⟨r, hr', contains_mem.mp hw, hst⟩
  · rintro ⟨r, hr, hw, hst⟩
    exact ⟨r, List.mem_filter.mpr ⟨hr, contains_mem.mpr hw⟩, hst⟩

theorem deltaIdx_eq_windowTags (weekly : List SummaryRow) :
    deltaIdx weekly =
      sortStrings (((weekly.filter (fun r =>
        decide (r.week ∈ recentWeeks weekly ∨ r.week ∈ priorWeeks weekly))).map
          (fun r => r.tag)).dedup) := by
  rw [deltaIdx]
  apply sortStrings_eq_of_mem_iff (List.nodup_dedup _) (List.nodup_dedup _)
  intro t
  rw [List.mem_dedup, List.mem_dedup, List.mem_append]
  constructor
  · rintro (h | h)
    · obtain ⟨r, hr, hw, hst⟩ := mem_series_keys.mp h
      refine List.mem_map.mpr ⟨r, List.mem_filter.mpr ⟨hr, ?_⟩, hst⟩
      simp [hw]
    · obtain ⟨r, hr, hw, hst⟩ := mem_series_keys.mp h
      refine List.mem_map.mpr ⟨r, List.mem_filter.mpr ⟨hr, ?_⟩, hst⟩
      simp [hw]
  · intro h
    obtain ⟨r, hr, hst⟩ := List.mem_map.mp h
    obtain ⟨hr', hcond⟩ := List.mem_filter.mp hr
    rcases decide_eq_true_eq.mp hcond with hw | hw
    · exact Or.inl (mem_series_keys.mpr ⟨r, hr', hw, hst⟩)
    · exact Or.inr (mem_series_keys.mpr ⟨r, hr', hw, hst⟩)

theorem sumPosts_window (weekly : List SummaryRow) (wks : List String) (t : String) :
    sumPosts (weekly.filter (fun r => wks.contains r.week)) t =
      postsInWeeks weekly wks t := by
  rw [sumPosts, postsInWeeks, List.filter_filter]
  congr 1
  congr 1
  apply List.filter_congr
  intro r _
  by_cases h1 : r.week ∈ wks <;> by_cases h2 : r.tag = t <;>
    simp [h1, h2, contains_mem]

theorem postsInWeeks_eq_zero {weekly : List SummaryRow} {wks : List String} {t : String}
    (h : ¬ ∃ r ∈ weekly, r.week ∈ wks ∧ r.tag = t) :
    postsInWeeks weekly wks t = 0 := by
  rw [postsInWeeks]
  have : weekly.filter (fun r => decide (r.week ∈ wks ∧ r.tag = t)) = [] := by
    rw [List.filter_eq_nil_iff]
    intro r hr hcond
    exact h ⟨r, hr, decide_eq_true_eq.mp hcond⟩
  rw [this]
  rfl

/-- C2 (amended). Trend ranking as the code computes it: the ranking
runs over the tags occurring in the recent or prior window; a tag
present in the recent window gets delta `recent_posts - prior_posts`
(missing prior counting 0, which subsumes the claim's "delta defaults to
recent_posts"); a tag present only in the prior window gets an undefined
delta and is ordered after every defined delta (but is still eligible
for the top-5 truncation); the list is the first 5 of that order. -/
theorem rising_delta_amended (weekly : List SummaryRow)
    (_h2 : 2 ≤ (weeksSorted weekly).length) :
    risingTags weekly = amendedRisingTags weekly := by
  rw [risingTags, amendedRisingTags]
  have hds : deltaSeries weekly =
      (sortStrings (((weekly.filter (fun r =>
        decide (r.week ∈ recentWeeks weekly ∨ r.week ∈ priorWeeks weekly))).map
          (fun r => r.tag)).dedup)).map (fun t =>
        (t, if weekly.any (fun r => decide (r.week ∈ recentWeeks weekly ∧ r.tag = t))
            then some ((postsInWeeks weekly (recentWeeks weekly) t : ℤ) -
                       (postsInWeeks weekly (priorWeeks weekly) t : ℤ))
            else none)) := by
    rw [deltaSeries, ← deltaIdx_eq_windowTags]
    refine List.map_congr_left (fun t ht => ?_)
    by_cases hmemR : t ∈ (weekly.filter (fun r =>
        (recentWeeks weekly).contains r.week)).map (fun r => r.tag)
    · have hlookR : List.lookup t (recentSeries weekly) =
          some (sumPosts (weekly.filter (fun r =>
            (recentWeeks weekly).contains r.week)) t) := by
        rw [recentSeries, lookup_groupSum, if_pos hmemR]
      have hany : weekly.any
          (fun r => decide (r.week ∈ recentWeeks weekly ∧ r.tag = t)) = true := by
        rw [List.any_eq_true]
        obtain ⟨r, hr, hst⟩ := List.mem_map.mp hmemR
        obtain ⟨hr', hw⟩ := List.mem_filter.mp hr
        exact ⟨r, hr', decide_eq_true_eq.mpr ⟨contains_mem.mp hw, hst⟩⟩
      by_cases hmemP : t ∈ (weekly.filter (fun r =>
          (priorWeeks weekly).contains r.week)).map (fun r => r.tag)
      · have hlookP : List.lookup t (priorSeries weekly) =
            some (sumPosts (weekly.filter (fun r =>
              (priorWeeks weekly).contains r.week)) t) := by
          rw [priorSeries, lookup_groupSum, if_pos hmemP]
        rw [deltaVal, hlookR, hlookP, if_pos hany, sumPosts_window, sumPosts_window]
      · have hlookP : List.lookup t (priorSeries weekly) = none := by
          rw [priorSeries, lookup_groupSum, if_neg hmemP]
        have hpz : postsInWeeks weekly (priorWeeks weekly) t = 0 := by
          apply postsInWeeks_eq_zero
          intro hex
          obtain ⟨r, hr, hw, hst⟩ := hex
          exact hmemP (List.mem_map.mpr
            ⟨r, List.mem_filter.mpr ⟨hr, contains_mem.mpr hw⟩, hst⟩)
        rw [deltaVal, hlookR, hlookP, if_pos hany, sumPosts_window, hpz,
          Nat.cast_zero, sub_zero]
    · have hlookR : List.lookup t (recentSeries weekly) = none := by
        rw [recentSeries, lookup_groupSum, if_neg hmemR]
      have hany : ¬ weekly.any
          (fun r => decide (r.week ∈ recentWeeks weekly ∧ r.tag = t)) = true := by
        rw [List.any_eq_true]
        intro hex
        obtain ⟨r, hr, hcond⟩ := hex
        obtain ⟨hw, hst⟩ := decide_eq_true_eq.mp hcond
        exact hmemR (List.mem_map.mpr
          ⟨r, List.mem_filter.mpr ⟨hr, contains_mem.mpr hw⟩, hst⟩)
      rw [deltaVal, hlookR, if_neg hany]
  rw [hds]

/-- Witness for the amended C2 at the concrete table `ctable`. -/
theorem rising_delta_amended_witness :
    2 ≤ (weeksSorted ctable).length
    ∧ risingTags ctable = amendedRisingTags ctable :=
  ⟨by decide, rising_delta_amended ctable (by decide)⟩
